import Mathlib

/-!
Verification development for the KoPL knowledge-base query engine.

The definitions below are a shallow embedding of the Python sources
(src/kopl/util.py, src/kopl/data.py, src/kopl/kopl.py): the typed-value
comparison algebra, the knowledge-base indices and the construction-time
scans that build them, a representative set of query primitives, and the
dependency inference of the program interpreter.  Python floats are
modelled as rationals, Python dicts as association lists (with the
defaultdict insert-on-read behaviour made explicit), and Python
exceptions as an Except monad.
-/

namespace KoPL

/-- Value type tags as they appear in raw knowledge-base value records. -/
inductive VType where
  | string
  | quantity
  | date
  | year
deriving DecidableEq

/-- Calendar date, the payload of the Python datetime.date object. -/
structure DateV where
  year : Int
  month : Int
  day : Int
deriving DecidableEq

/-- Tagged value sum mirroring ValueClass of src/kopl/util.py; a quantity
carries its unit and years are integers. -/
inductive Value where
  | str (s : String)
  | quantity (v : Rat) (unit : String)
  | year (n : Int)
  | date (d : DateV)
deriving DecidableEq

/-- Python exception kinds raised by the embedded code. -/
inductive PyErr where
  | typeError
  | valueError
  | keyError
  | indexError
  | assertionError
  | exception
deriving DecidableEq

/-- ValueClass.isTime: the value is a year or a date. -/
def Value.isTime : Value → Bool
  | .year _ => true
  | .date _ => true
  | _ => false

/-- ValueClass.can_compare: strings with strings, quantities with same-unit
quantities, temporal values with temporal values. -/
def Value.can_compare (a b : Value) : Bool :=
  match a with
  | .str _ =>
    match b with
    | .str _ => true
    | _ => false
  | .quantity _ u =>
    match b with
    | .quantity _ u' => u' == u
    | _ => false
  | _ =>
    match b with
    | .year _ => true
    | .date _ => true
    | _ => false

/-- ValueClass.contains: a date and a year contain each other exactly when
the year components agree; every other combination returns false. -/
def Value.contains (a b : Value) : Bool :=
  match a, b with
  | .date d, .year n => d.year == n
  | .year n, .date d => d.year == n
  | _, _ => false

/-- ValueClass.eq: strict type and value equality, guarded by can_compare. -/
def Value.eqv (a b : Value) : Bool :=
  if a.can_compare b then
    match a, b with
    | .str s, .str t => s == t
    | .quantity v _, .quantity w _ => v == w
    | .year n, .year m => n == m
    | .date d, .date e => d == e
    | _, _ => false
  else false

/-- Lexicographic order on calendar dates, as Python datetime.date compares. -/
def DateV.ltB (a b : DateV) : Bool :=
  a.year < b.year ||
    (a.year == b.year &&
      (a.month < b.month || (a.month == b.month && a.day < b.day)))

/-- ValueClass.lt: asserts comparability, raises on string ordering,
converts between year and date by taking the year component. -/
def Value.ltv (a b : Value) : Except PyErr Bool :=
  if !(a.can_compare b) then .error .assertionError
  else
    match a, b with
    | .str _, _ => .error .exception
    | .quantity v _, .quantity w _ => .ok (decide (v < w))
    | .year n, .year m => .ok (decide (n < m))
    | .year n, .date d => .ok (decide (n < d.year))
    | .date d, .year m => .ok (decide (d.year < m))
    | .date d, .date e => .ok (d.ltB e)
    | _, _ => .ok false

/-- Lexicographic comparison of character lists by code point, the order
Python uses on str values. -/
def charListLt : List Char → List Char → Bool
  | [], [] => false
  | [], _ :: _ => true
  | _ :: _, [] => false
  | c :: cs, d :: ds =>
    if c < d then true
    else if d < c then false
    else charListLt cs ds

/-- Lexicographic comparison of strings by code point. -/
def strLtB (a b : String) : Bool :=
  charListLt a.data b.data

/-- ValueClass.gt: never raises; strings compare lexicographically, every
non-matching combination returns false. -/
def Value.gtv (a b : Value) : Bool :=
  match a, b with
  | .str s, .str t => strLtB t s
  | .quantity v u, .quantity w u' => if u == u' then decide (v > w) else false
  | .year n, .year m => decide (n > m)
  | .date d, .date e => e.ltB d
  | .date d, .year m => decide (d.year > m)
  | .year n, .date e => decide (n > e.year)
  | _, _ => false

/-- The comparison dispatcher comp of src/kopl/util.py: temporal right
operands route equality and inequality through containment, the remaining
operators dispatch to the ValueClass operators, and any operator outside
the four supported ones raises TypeError. -/
def comp (a b : Value) (op : String) : Except PyErr Bool :=
  if b.isTime && op == "=" then .ok (b.contains a)
  else if b.isTime && op == "!=" then .ok (!(b.contains a))
  else if op == "=" then .ok (a.eqv b)
  else if op == "<" then a.ltv b
  else if op == ">" then .ok (a.gtv b)
  else if op == "!=" then .ok (!(a.eqv b))
  else .error .typeError

/-- C1: comp implements cross-tag temporal equality by containment, but it
also routes same-tag temporal equality through containment, which returns
false for two years and for two dates; hence comp applied to the year 1960
on both sides yields false for the equality operator and true for the
inequality operator, contradicting the claimed field equality within a tag. -/
theorem c1_comp_temporal_eval :
    comp (Value.date ⟨1960, 2, 1⟩) (Value.year 1960) "=" = .ok true ∧
    comp (Value.year 1960) (Value.date ⟨1960, 2, 1⟩) "=" = .ok true ∧
    comp (Value.year 1960) (Value.year 1960) "=" = .ok false ∧
    comp (Value.year 1960) (Value.year 1960) "!=" = .ok true ∧
    comp (Value.date ⟨1960, 2, 1⟩) (Value.date ⟨1960, 2, 1⟩) "=" = .ok false :=
  ⟨rfl, rfl, rfl, rfl, rfl⟩

/-- C2 counterexample: an ordering comparison of two string values with the
greater-than operator does not raise; it returns an ordinary boolean. -/
theorem c2_string_gt_no_error_counterexample :
    comp (Value.str "a") (Value.str "b") ">" = .ok false ∧
    comp (Value.str "b") (Value.str "a") ">" = .ok true :=
  ⟨rfl, rfl⟩

/-- The boolean lexicographic comparison agrees with the lexicographic
strict order on character lists. -/
theorem charListLt_iff_lex (l1 l2 : List Char) :
    charListLt l1 l2 = true ↔ List.Lex (· < ·) l1 l2 := by
  induction l1 generalizing l2 with
  | nil =>
    cases l2 with
    | nil =>
      simp only [charListLt, Bool.false_eq_true, false_iff]
      intro h
      cases h
    | cons d ds => simp [charListLt, List.Lex.nil]
  | cons c cs ih =>
    cases l2 with
    | nil =>
      simp only [charListLt, Bool.false_eq_true, false_iff]
      intro h
      cases h
    | cons d ds =>
      by_cases hcd : c < d
      · simp only [charListLt, hcd, if_true, true_iff]
        exact List.Lex.rel hcd
      · by_cases hdc : d < c
        · simp only [charListLt, hcd, hdc, if_true, if_false, Bool.false_eq_true,
            false_iff]
          intro h
          cases h with
          | cons h' => exact hdc.false
          | rel h' => exact hcd h'
        · have hceq : c = d := le_antisymm (le_of_not_lt hdc) (le_of_not_lt hcd)
          subst hceq
          simp only [charListLt, hcd, if_false, lt_irrefl, ih]
          constructor
          · exact fun h => List.Lex.cons h
          · intro h
            cases h with
            | cons h' => exact h'
            | rel h' => exact absurd h' (lt_irrefl c)

/-- The boolean string comparison agrees with the lexicographic strict
order on strings. -/
theorem strLtB_iff (a b : String) : strLtB a b = true ↔ a < b := by
  rw [strLtB, charListLt_iff_lex, String.lt_iff_toList_lt]
  exact Iff.rfl

/-- C2 amended: for two string values the less-than comparison raises a
domain error, while the greater-than comparison never raises and returns
the lexicographic comparison of the two strings. -/
theorem c2_string_ordering_amended (a b : String) :
    comp (Value.str a) (Value.str b) "<" = .error .exception ∧
    ∃ r, comp (Value.str a) (Value.str b) ">" = .ok r ∧ (r = true ↔ b < a) := by
  refine ⟨by simp [comp, Value.isTime, Value.ltv, Value.can_compare], ?_⟩
  exact ⟨strLtB b a, by simp [comp, Value.isTime, Value.gtv], strLtB_iff b a⟩

/-- C10: any operator string outside the four supported comparison
operators makes comp raise TypeError, for all operand values. -/
theorem c10_unsupported_op (a b : Value) (op : String)
    (h1 : op ≠ "=") (h2 : op ≠ "!=") (h3 : op ≠ "<") (h4 : op ≠ ">") :
    comp a b op = .error .typeError := by
  simp [comp, h1, h2, h3, h4]

/-- C10 witness: the operator string for at-least raises TypeError. -/
theorem c10_unsupported_op_witness :
    comp (Value.year 1) (Value.year 2) ">=" = .error .typeError :=
  c10_unsupported_op _ _ _ (by decide) (by decide) (by decide) (by decide)

/-- Association-list lookup, the model of Python dict access (first
binding wins; construction keeps at most one binding per key). -/
def alookup {α β : Type} [DecidableEq α] : List (α × β) → α → Option β
  | [], _ => none
  | (k, v) :: rest, k' => if k' = k then some v else alookup rest k'

/-- Digits to a natural number, most significant first. -/
def digitsToNat (cs : List Char) : Nat :=
  cs.foldl (fun n c => n * 10 + (c.toNat - 48)) 0

/-- Check that every character is a decimal digit. -/
def allDigits (cs : List Char) : Bool :=
  cs.all (fun c => c.isDigit)

/-- Model of the Python int constructor on strings: an optional sign
followed by at least one decimal digit. -/
def pyInt? (s : String) : Option Int :=
  match s.data with
  | '-' :: rest =>
    if rest ≠ [] ∧ allDigits rest then some (-(digitsToNat rest : Int)) else none
  | '+' :: rest =>
    if rest ≠ [] ∧ allDigits rest then some (digitsToNat rest : Int) else none
  | cs => if cs ≠ [] ∧ allDigits cs then some (digitsToNat cs : Int) else none

/-- Model of the Python float constructor on decimal literals: an optional
sign, an integer part and an optional fractional part, at least one digit
in total; the result is an exact rational. -/
def pyFloat? (s : String) : Option Rat :=
  let core : List Char → Option Rat := fun cs =>
    let ip := cs.takeWhile (fun c => c.isDigit)
    let rest := cs.drop ip.length
    match rest with
    | [] => if ip ≠ [] then some ((digitsToNat ip : Int) : Rat) else none
    | '.' :: fp =>
      if allDigits fp ∧ (ip ≠ [] ∨ fp ≠ []) then
        some ((digitsToNat ip : Rat) + (digitsToNat fp : Rat) / ((10 : Rat) ^ fp.length))
      else none
    | _ => none
  match s.data with
  | '-' :: rest => (core rest).map (fun q => -q)
  | '+' :: rest => core rest
  | cs => core cs

/-- Gregorian leap-year test, as the Python datetime module computes it. -/
def isLeapYear (y : Int) : Bool :=
  y % 4 == 0 && (y % 100 != 0 || y % 400 == 0)

/-- Number of days in a month, as the Python datetime module computes it. -/
def daysInMonth (y m : Int) : Int :=
  if m == 2 then (if isLeapYear y then 29 else 28)
  else if m == 4 || m == 6 || m == 9 || m == 11 then 30
  else 31

/-- Model of the Python date constructor: validates year, month and day
ranges and raises ValueError otherwise. -/
def mkDate (y m d : Int) : Except PyErr DateV :=
  if 1 ≤ y ∧ y ≤ 9999 ∧ 1 ≤ m ∧ m ≤ 12 ∧ 1 ≤ d ∧ d ≤ daysInMonth y m then
    .ok ⟨y, m, d⟩
  else .error .valueError

/-- Separator test shared by both value parsers: a slash anywhere, or a
dash that is not the leading character. -/
def hasSep (cs : List Char) : Bool :=
  cs.contains '/' || (cs.contains '-' && cs.head? != some '-')

/-- Index of the last occurrence of a character (the Python rfind). -/
def rIdxOf (c : Char) (cs : List Char) : Nat :=
  cs.length - 1 - cs.reverse.indexOf c

/-- Temporal branch of the user-literal parser: with a separator present,
split at the first and last separator occurrence and build a date; without
one, parse the whole literal as a year. -/
def parseTemporalStr (x : String) : Except PyErr Value :=
  let cs := x.data
  if hasSep cs then
    let c := if cs.contains '/' then '/' else '-'
    let p1 := cs.indexOf c
    let p2 := rIdxOf c cs
    match pyInt? ⟨cs.take p1⟩, pyInt? ⟨(cs.drop (p1 + 1)).take (p2 - (p1 + 1))⟩,
        pyInt? ⟨cs.drop (p2 + 1)⟩ with
    | some y, some m, some d => (mkDate y m d).map Value.date
    | _, _, _ => .error .valueError
  else
    match pyInt? x with
    | some n => .ok (Value.year n)
    | none => .error .valueError

/-- Quantity branch of the user-literal parser: with whitespace present,
the first token is the number and the rest joined by single spaces is the
unit; otherwise the unit defaults to the dimensionless marker. -/
def parseQuantityStr (value : String) : Except PyErr Value :=
  if value.data.contains ' ' then
    let parts := (value.split (fun c => c = ' ')).filter (fun t => t ≠ "")
    match parts with
    | [] => .error .indexError
    | v :: rest =>
      match pyFloat? v with
      | some q => .ok (.quantity q (String.intercalate " " rest))
      | none => .error .valueError
  else
    match pyFloat? value with
    | some q => .ok (.quantity q "1")
    | none => .error .valueError

/-- Dispatch of the user-literal parser on the expected type; every type
other than string and quantity takes the temporal branch. -/
def parseWithType (value : String) (t : VType) : Except PyErr Value :=
  match t with
  | .string => .ok (.str value)
  | .quantity => parseQuantityStr value
  | _ => parseTemporalStr value

/-- KoPLEngine._parse_key_value: when no explicit type is given the type
is looked up in key_type (raising KeyError when the key is absent, or
ValueError when no key was supplied either). -/
def parse_key_value (kt : List (String × VType)) (key : Option String)
    (value : String) (typ : Option VType) : Except PyErr Value :=
  match typ with
  | some t => parseWithType value t
  | none =>
    match key with
    | none => .error .valueError
    | some k =>
      match alookup kt k with
      | none => .error .keyError
      | some t => parseWithType value t

/-- The per-value match bit of KoPLEngine._verify: comparability guard
followed by the comparison dispatcher (propagating its exceptions). -/
def matchList : List Value → Value → String → Except PyErr (List Bool)
  | [], _, _ => .ok []
  | a :: rest, v, op =>
    if a.can_compare v then
      match comp a v op with
      | .error e => .error e
      | .ok b => (matchList rest v op).map (fun ms => b :: ms)
    else
      (matchList rest v op).map (fun ms => false :: ms)

/-- Verdict computation of KoPLEngine._verify from the match bits. -/
def verdict (ms : List Bool) : String :=
  if ms.count true ≥ 1 ∧ ms.count true = ms.length then "yes"
  else if ms.count true = 0 then "no"
  else "not sure"

/-- KoPLEngine._verify: parse the target under the explicit type (the
ambient key_type map is not consulted since a type is always supplied),
compute the match bits and derive the ternary verdict. -/
def verify (svals : List Value) (t_value : String) (op : String) (typ : VType) :
    Except PyErr String :=
  match parse_key_value [] none t_value (some typ) with
  | .error e => .error e
  | .ok v =>
    match matchList svals v op with
    | .error e => .error e
    | .ok ms => .ok (verdict ms)

/-- Specification-side match predicate: the input value is comparable to
the target and the comparison operator holds. -/
def vmatch (v tgt : Value) (op : String) : Prop :=
  v.can_compare tgt = true ∧ comp v tgt op = .ok true

/-- Boolean form of the per-value match bit. -/
def mOf (v tgt : Value) (op : String) : Bool :=
  v.can_compare tgt &&
    (match comp v tgt op with
     | .ok b => b
     | .error _ => false)

/-- A successful match-bit computation produces exactly the per-value
match bits. -/
theorem matchList_ok (tgt : Value) (op : String) :
    ∀ (svals : List Value) (ms : List Bool),
      matchList svals tgt op = .ok ms → ms = svals.map (fun v => mOf v tgt op) := by
  intro svals
  induction svals with
  | nil =>
    intro ms h
    simpa [matchList] using h.symm
  | cons a rest ih =>
    intro ms h
    by_cases hc : a.can_compare tgt
    · rw [matchList, if_pos hc] at h
      cases hcomp : comp a tgt op with
      | error e => rw [hcomp] at h; exact absurd h (by simp)
      | ok b =>
        rw [hcomp] at h
        cases hrec : matchList rest tgt op with
        | error e => rw [hrec] at h; exact absurd h (by simp [Except.map])
        | ok ms' =>
          rw [hrec] at h
          simp only [Except.map, Except.ok.injEq] at h
          subst h
          simp [List.map, ih ms' hrec, mOf, hc, hcomp]
    · rw [matchList, if_neg hc] at h
      cases hrec : matchList rest tgt op with
      | error e => rw [hrec] at h; exact absurd h (by simp [Except.map])
      | ok ms' =>
        rw [hrec] at h
        simp only [Except.map, Except.ok.injEq] at h
        subst h
        simp [List.map, ih ms' hrec, mOf, hc]

/-- The boolean match bit is true exactly when the match predicate holds. -/
theorem mOf_true_iff (v tgt : Value) (op : String) :
    mOf v tgt op = true ↔ vmatch v tgt op := by
  rw [mOf, vmatch, Bool.and_eq_true]
  cases hcomp : comp v tgt op with
  | error e => simp [hcomp]
  | ok b => simp [hcomp]

/-- C8: the verification helper answers yes exactly when every input value
is comparable to the parsed target and satisfies the operator and the list
is non-empty, no exactly when no input value matches (including the empty
list), and not sure otherwise. -/
theorem c8_verify_verdict (svals : List Value) (t_value op : String) (typ : VType)
    (tgt : Value) (ms : List Bool)
    (hp : parse_key_value [] none t_value (some typ) = .ok tgt)
    (hm : matchList svals tgt op = .ok ms) :
    (verify svals t_value op typ = .ok "yes" ↔
        svals ≠ [] ∧ ∀ v ∈ svals, vmatch v tgt op) ∧
    (verify svals t_value op typ = .ok "no" ↔ ∀ v ∈ svals, ¬ vmatch v tgt op) ∧
    (verify svals t_value op typ = .ok "not sure" ↔
        ¬(svals ≠ [] ∧ ∀ v ∈ svals, vmatch v tgt op) ∧
        ¬(∀ v ∈ svals, ¬ vmatch v tgt op)) := by
  have hv : verify svals t_value op typ = .ok (verdict ms) := by
    simp only [verify, hp, hm]
  have hms := matchList_ok tgt op svals ms hm
  have hAll : (ms.count true = ms.length) ↔ ∀ v ∈ svals, vmatch v tgt op := by
    rw [List.count_eq_length, hms]
    constructor
    · intro h v hvmem
      exact (mOf_true_iff v tgt op).mp ((h _ (List.mem_map_of_mem _ hvmem)).symm)
    · intro h b hb
      rcases List.mem_map.mp hb with ⟨v, hvmem, rfl⟩
      exact ((mOf_true_iff v tgt op).mpr (h v hvmem)).symm
  have hZero : (ms.count true = 0) ↔ ∀ v ∈ svals, ¬ vmatch v tgt op := by
    rw [List.count_eq_zero, hms]
    constructor
    · intro h v hvmem hvm
      exact h (List.mem_map.mpr ⟨v, hvmem, (mOf_true_iff v tgt op).mpr hvm⟩)
    · intro h hmem
      rcases List.mem_map.mp hmem with ⟨v, hvmem, hveq⟩
      exact h v hvmem ((mOf_true_iff v tgt op).mp hveq)
  have hlen : ms.length = svals.length := by rw [hms, List.length_map]
  have key : (1 ≤ ms.count true ∧ ms.count true = ms.length) ↔
      (svals ≠ [] ∧ ∀ v ∈ svals, vmatch v tgt op) := by
    constructor
    · rintro ⟨h1, h2⟩
      refine ⟨?_, hAll.mp h2⟩
      have hpos : 0 < svals.length := by omega
      exact List.length_pos.mp hpos
    · rintro ⟨h1, h2⟩
      have h2' := hAll.mpr h2
      have hpos : 0 < svals.length := List.length_pos.mpr h1
      omega
  rw [hv]
  by_cases hY : ms.count true ≥ 1 ∧ ms.count true = ms.length
  · have hvd : verdict ms = "yes" := by rw [verdict, if_pos hY]
    rw [hvd]
    have hr := key.mp hY
    refine ⟨?_, ?_, ?_⟩
    · simp only [Except.ok.injEq]
      exact ⟨fun _ => hr, fun _ => by trivial⟩
    · simp only [Except.ok.injEq]
      constructor
      · intro h
        exact absurd h (by decide)
      · intro h
        rcases List.exists_mem_of_ne_nil svals hr.1 with ⟨v, hvmem⟩
        exact absurd (hr.2 v hvmem) (h v hvmem)
    · simp only [Except.ok.injEq]
      constructor
      · intro h
        exact absurd h (by decide)
      · rintro ⟨hn, _⟩
        exact absurd hr hn
  · by_cases hZ : ms.count true = 0
    · have hvd : verdict ms = "no" := by rw [verdict, if_neg hY, if_pos hZ]
      rw [hvd]
      refine ⟨?_, ?_, ?_⟩
      · simp only [Except.ok.injEq]
        constructor
        · intro h
          exact absurd h (by decide)
        · intro h
          exact absurd (key.mpr h) hY
      · simp only [Except.ok.injEq]
        exact ⟨fun _ => hZero.mp hZ, fun _ => by trivial⟩
      · simp only [Except.ok.injEq]
        constructor
        · intro h
          exact absurd h (by decide)
        · rintro ⟨_, hb⟩
          exact absurd (hZero.mp hZ) hb
    · have hvd : verdict ms = "not sure" := by rw [verdict, if_neg hY, if_neg hZ]
      rw [hvd]
      refine ⟨?_, ?_, ?_⟩
      · simp only [Except.ok.injEq]
        constructor
        · intro h
          exact absurd h (by decide)
        · intro h
          exact absurd (key.mpr h) hY
      · simp only [Except.ok.injEq]
        constructor
        · intro h
          exact absurd h (by decide)
        · intro h
          exact absurd (hZero.mpr h) hZ
      · simp only [Except.ok.injEq]
        refine ⟨fun _ => ⟨?_, ?_⟩, fun _ => by trivial⟩
        · intro hA
          exact absurd (key.mpr hA) hY
        · intro hB
          exact absurd (hZero.mpr hB) hZ

/-- C8 witness: a singleton string value verified against an equal string
literal answers yes. -/
theorem c8_verify_verdict_witness :
    verify [Value.str "x"] "x" "=" VType.string = .ok "yes" := by
  have h := c8_verify_verdict [Value.str "x"] "x" "=" VType.string
    (Value.str "x") [true] rfl rfl
  refine h.1.mpr ⟨by decide, ?_⟩
  intro v hv
  rw [List.mem_singleton] at hv
  subst hv
  exact ⟨rfl, rfl⟩

/-- Attribute record of an entity after construction: parsed value and
parsed qualifier values. -/
structure Attr where
  key : String
  value : Value
  qualifiers : List (String × List Value)
deriving DecidableEq

/-- Relation record of an entity after construction. -/
structure Rel where
  relation : String
  direction : String
  object : String
  qualifiers : List (String × List Value)
deriving DecidableEq

/-- Entity record of the merged store. -/
structure Entity where
  name : String
  isA : List String
  attributes : List Attr
  relations : List Rel
deriving DecidableEq

/-- The knowledge-base state after construction: the entity store and the
indices the primitives read.  Index maps built as defaultdicts are plain
association lists here, with the insert-on-read behaviour modelled by
dgetD below. -/
structure KBState where
  entities : List (String × Entity)
  name_to_id : List (String × List String)
  key_type : List (String × VType)
  attribute_inv_index : List (String × List (String × List Nat))
  relation_inv_index : List ((String × String) × List (String × List Nat))
  forward_relation_index : List ((String × String) × List Nat)
  concept_to_entity : List (String × List String)
deriving DecidableEq

/-- Defaultdict read: a missing key is inserted with the default value
(appended, as Python dicts preserve insertion order). -/
def dgetD {α β : Type} [DecidableEq α] (m : List (α × β)) (k : α) (d : β) :
    β × List (α × β) :=
  match alookup m k with
  | some v => (v, m)
  | none => (d, m ++ [(k, d)])

/-- Write-back of a binding: replaces the existing binding of the key, or
appends one when absent. -/
def aset {α β : Type} [DecidableEq α] : List (α × β) → α → β → List (α × β)
  | [], k, v => [(k, v)]
  | (k0, v0) :: rest, k, v =>
    if k = k0 then (k, v) :: rest else (k0, v0) :: aset rest k v

/-- KoPLEngine.Find: a defaultdict lookup of the name; an unseen name
inserts an empty binding into the name index. -/
def Find (st : KBState) (name : String) :
    (List String × Option (List Attr)) × KBState :=
  let p := dgetD st.name_to_id name []
  ((p.1, none), { st with name_to_id := p.2 })

/-- KoPLEngine.FilterConcept: look the concept name up in the name index
(defaultdict), collect the members of every concept with that name via a
defaulted plain lookup, and intersect with the input ids. -/
def FilterConcept (st : KBState) (ids : List String) (concept_name : String) :
    (List String × Option (List Attr)) × KBState :=
  let p := dgetD st.name_to_id concept_name []
  let entity_ids_2 :=
    p.1.foldl (fun acc i => acc ++ (alookup st.concept_to_entity i).getD []) []
  ((ids.dedup.filter (fun e => decide (e ∈ entity_ids_2)), none),
    { st with name_to_id := p.2 })

/-- One access of the nested defaultdict attribute_inv_index at a key and
an entity id: both levels insert empty defaults for unseen keys, and the
updated inner map is written back to the outer entry it aliases. -/
def attrIdxAccess (st : KBState) (key eid : String) : List Nat × KBState :=
  let po := dgetD st.attribute_inv_index key []
  let pi := dgetD po.1 eid []
  (pi.1, { st with attribute_inv_index := aset po.2 key pi.2 })

/-- Plain-dict and list access entities[eid].attributes[idx]. -/
def getAttrAt (st : KBState) (eid : String) (idx : Nat) : Except PyErr Attr :=
  match alookup st.entities eid with
  | none => .error .keyError
  | some e =>
    match e.attributes.get? idx with
    | none => .error .indexError
    | some a => .ok a

/-- Fetch the attribute records at a list of positions. -/
def getAttrsAt (st : KBState) (eid : String) : List Nat → Except PyErr (List Attr)
  | [] => .ok []
  | idx :: rest =>
    match getAttrAt st eid idx with
    | .error e => .error e
    | .ok a => (getAttrsAt st eid rest).map (fun l => a :: l)

/-- Loop body of KoPLEngine.QueryAttr: per input id, read the inverse
index (growing it at unseen keys) and collect the attribute values. -/
def queryAttrLoop (key : String) :
    KBState → List String → Except PyErr (List Value × KBState)
  | st, [] => .ok ([], st)
  | st, eid :: rest =>
    let pa := attrIdxAccess st key eid
    match getAttrsAt pa.2 eid pa.1 with
    | .error e => .error e
    | .ok attrs =>
      match queryAttrLoop key pa.2 rest with
      | .error e => .error e
      | .ok (vs, st2) => .ok (attrs.map (fun a => a.value) ++ vs, st2)

/-- KoPLEngine.QueryAttr. -/
def QueryAttr (st : KBState) (ids : List String) (key : String) :
    Except PyErr (List Value × KBState) :=
  queryAttrLoop key st ids

/-- Plain-dict and list access entities[eid].relations[idx]. -/
def getRelAt (st : KBState) (eid : String) (idx : Nat) : Except PyErr Rel :=
  match alookup st.entities eid with
  | none => .error .keyError
  | some e =>
    match e.relations.get? idx with
    | none => .error .indexError
    | some r => .ok r

/-- Fetch the relation records at a list of positions. -/
def getRelsAt (st : KBState) (eid : String) : List Nat → Except PyErr (List Rel)
  | [] => .ok []
  | idx :: rest =>
    match getRelAt st eid idx with
    | .error e => .error e
    | .ok r => (getRelsAt st eid rest).map (fun l => r :: l)

/-- Loop body of KoPLEngine.Relate over the intersected id set. -/
def relateLoop (st : KBState) (inner : List (String × List Nat)) :
    List String → Except PyErr (List Rel)
  | [] => .ok []
  | eid :: rest =>
    match getRelsAt st eid ((alookup inner eid).getD []) with
    | .error e => .error e
    | .ok rs => (relateLoop st inner rest).map (fun l => rs ++ l)

/-- KoPLEngine.Relate: one defaultdict access of relation_inv_index at the
(relation, direction) pair (inserting an empty inner map when unseen),
then iteration over the ids present in the inner map, emitting the object
and the relation record of every indexed position. -/
def Relate (st : KBState) (ids : List String) (relation direction : String) :
    Except PyErr ((List String × List Rel) × KBState) :=
  let po := dgetD st.relation_inv_index (relation, direction) []
  let st1 := { st with relation_inv_index := po.2 }
  let eset := ids.dedup.filter (fun e => (alookup po.1 e).isSome)
  match relateLoop st1 po.1 eset with
  | .error e => .error e
  | .ok facts => .ok ((facts.map (fun r => r.object), facts), st1)

/-- Short-circuit scan of one qualifier value list of
KoPLEngine.QueryAttrUnderCondition: any value comparable and
containment-equal to the target sets the flag. -/
def anyMatchEq : List Value → Value → Except PyErr Bool
  | [], _ => .ok false
  | q :: rest, v =>
    if q.can_compare v then
      match comp q v "=" with
      | .error e => .error e
      | .ok true => .ok true
      | .ok false => anyMatchEq rest v
    else anyMatchEq rest v

/-- Scan of the qualifier entries for the qualifier key, stopping at the
first match. -/
def qualFlag : List (String × List Value) → String → Value → Except PyErr Bool
  | [], _, _ => .ok false
  | (qk, qvs) :: rest, qkey, v =>
    if qk = qkey then
      match anyMatchEq qvs v with
      | .error e => .error e
      | .ok true => .ok true
      | .ok false => qualFlag rest qkey v
    else qualFlag rest qkey v

/-- Per-position body of KoPLEngine.QueryAttrUnderCondition: keep the
attribute value when some qualifier under the qualifier key matches. -/
def qaucAttrs (st : KBState) (eid qkey : String) (qv : Value) :
    List Nat → Except PyErr (List Value)
  | [] => .ok []
  | idx :: rest =>
    match getAttrAt st eid idx with
    | .error e => .error e
    | .ok a =>
      match qualFlag a.qualifiers qkey qv with
      | .error e => .error e
      | .ok flag =>
        (qaucAttrs st eid qkey qv rest).map
          (fun vs => if flag then a.value :: vs else vs)

/-- Loop of KoPLEngine.QueryAttrUnderCondition over the input ids. -/
def qaucLoop (key qkey : String) (qv : Value) :
    KBState → List String → Except PyErr (List Value × KBState)
  | st, [] => .ok ([], st)
  | st, eid :: rest =>
    let pa := attrIdxAccess st key eid
    match qaucAttrs pa.2 eid qkey qv pa.1 with
    | .error e => .error e
    | .ok vs =>
      match qaucLoop key qkey qv pa.2 rest with
      | .error e => .error e
      | .ok (vs2, st2) => .ok (vs ++ vs2, st2)

/-- KoPLEngine.QueryAttrUnderCondition: the qualifier value literal is
parsed with the type looked up in key_type under the qualifier key, which
raises KeyError for a qualifier key absent from key_type. -/
def QueryAttrUnderCondition (st : KBState) (ids : List String)
    (key qkey qvalue : String) : Except PyErr (List Value × KBState) :=
  match parse_key_value st.key_type (some qkey) qvalue none with
  | .error e => .error e
  | .ok qv => qaucLoop key qkey qv st ids

/-- Concatenation of the qualifier value lists stored under a qualifier
key, in order. -/
def qualsFor (quals : List (String × List Value)) (qkey : String) : List Value :=
  (quals.filterMap (fun p => if p.1 = qkey then some p.2 else none)).flatten

/-- Per-position body of KoPLEngine.QueryAttrQualifier: for an attribute
whose key matches and whose value is comparable and containment-equal to
the parsed literal, emit the qualifier values under the qualifier key. -/
def qaqAttrs (st : KBState) (eid key qkey : String) (v : Value) :
    List Nat → Except PyErr (List Value)
  | [] => .ok []
  | idx :: rest =>
    match getAttrAt st eid idx with
    | .error e => .error e
    | .ok a =>
      if a.key = key ∧ a.value.can_compare v = true then
        match comp a.value v "=" with
        | .error e => .error e
        | .ok b =>
          (qaqAttrs st eid key qkey v rest).map
            (fun vs => if b then qualsFor a.qualifiers qkey ++ vs else vs)
      else qaqAttrs st eid key qkey v rest

/-- Loop of KoPLEngine.QueryAttrQualifier over the input ids. -/
def qaqLoop (key qkey : String) (v : Value) :
    KBState → List String → Except PyErr (List Value × KBState)
  | st, [] => .ok ([], st)
  | st, eid :: rest =>
    let pa := attrIdxAccess st key eid
    match qaqAttrs pa.2 eid key qkey v pa.1 with
    | .error e => .error e
    | .ok vs =>
      match qaqLoop key qkey v pa.2 rest with
      | .error e => .error e
      | .ok (vs2, st2) => .ok (vs ++ vs2, st2)

/-- KoPLEngine.QueryAttrQualifier: the attribute value literal is parsed
with the type looked up in key_type under the attribute key, which raises
KeyError for an attribute key absent from key_type. -/
def QueryAttrQualifier (st : KBState) (ids : List String)
    (key value qkey : String) : Except PyErr (List Value × KBState) :=
  match parse_key_value st.key_type (some key) value none with
  | .error e => .error e
  | .ok v => qaqLoop key qkey v st ids

/-- KoPLEngine.Or: union of the id channels as Python sets, dropping the
fact channels. -/
def OrPrim (a b : List String × Option (List Attr)) :
    List String × Option (List Attr) :=
  ((a.1 ++ b.1).dedup, none)

/-- KoPLEngine.Count: length of the id channel. -/
def CountPrim (a : List String × Option (List Attr)) : Nat :=
  a.1.length

/-- C9: counting the disjunction of two entity bundles yields the
cardinality of the union of their id sets. -/
theorem c9_count_or_union (A B : List String × Option (List Attr)) :
    CountPrim (OrPrim A B) = (A.1.toFinset ∪ B.1.toFinset).card := by
  rw [← List.toFinset_append, List.card_toFinset]
  rfl

/-- Lookup distributes over append when the key is absent on the left. -/
theorem alookup_append_of_none {α β : Type} [DecidableEq α]
    {m1 : List (α × β)} {k : α} (m2 : List (α × β))
    (h : alookup m1 k = none) : alookup (m1 ++ m2) k = alookup m2 k := by
  induction m1 with
  | nil => rfl
  | cons p rest ih =>
    rw [alookup] at h
    by_cases hk : k = p.1
    · rw [if_pos hk] at h
      exact absurd h (by simp)
    · rw [if_neg hk] at h
      cases p
      rw [List.cons_append, alookup, if_neg hk]
      exact ih h

/-- Lookup distributes over append when the key is present on the left. -/
theorem alookup_append_of_some {α β : Type} [DecidableEq α]
    {m1 : List (α × β)} {k : α} {v : β} (m2 : List (α × β))
    (h : alookup m1 k = some v) : alookup (m1 ++ m2) k = some v := by
  induction m1 with
  | nil => exact absurd h (by simp [alookup])
  | cons p rest ih =>
    rw [alookup] at h
    by_cases hk : k = p.1
    · rw [if_pos hk] at h
      cases p
      rw [List.cons_append, alookup, if_pos hk]
      exact h
    · rw [if_neg hk] at h
      cases p
      rw [List.cons_append, alookup, if_neg hk]
      exact ih h

/-- Lookup in a singleton at its own key. -/
theorem alookup_singleton_self {α β : Type} [DecidableEq α] (k : α) (d : β) :
    alookup [(k, d)] k = some d := by
  simp [alookup]

/-- Lookup in a singleton at a different key. -/
theorem alookup_singleton_other {α β : Type} [DecidableEq α] {k k' : α} (d : β)
    (h : k' ≠ k) : alookup [(k, d)] k' = none := by
  simp [alookup, h]

/-- The value returned by a defaultdict read is the stored binding or the
default. -/
theorem dgetD_fst {α β : Type} [DecidableEq α] (m : List (α × β)) (k : α) (d : β) :
    (dgetD m k d).1 = (alookup m k).getD d := by
  cases h : alookup m k <;> simp [dgetD, h]

/-- After a defaultdict read, the probed key is bound to the returned
value. -/
theorem alookup_dgetD_self {α β : Type} [DecidableEq α] (m : List (α × β))
    (k : α) (d : β) : alookup (dgetD m k d).2 k = some ((alookup m k).getD d) := by
  cases h : alookup m k with
  | some v => simp [dgetD, h]
  | none =>
    simp only [dgetD, h, Option.getD_none]
    rw [alookup_append_of_none _ h, alookup_singleton_self]

/-- A defaultdict read leaves every other binding unchanged. -/
theorem alookup_dgetD_other {α β : Type} [DecidableEq α] {m : List (α × β)}
    {k k' : α} (d : β) (h : k' ≠ k) :
    alookup (dgetD m k d).2 k' = alookup m k' := by
  cases hm : alookup m k with
  | some v => simp [dgetD, hm]
  | none =>
    simp only [dgetD, hm]
    cases hm' : alookup m k' with
    | some v => exact alookup_append_of_some _ hm'
    | none => rw [alookup_append_of_none _ hm', alookup_singleton_other _ h]

/-- Writing back the value that is already bound is the identity. -/
theorem aset_of_alookup_eq {α β : Type} [DecidableEq α]
    (m : List (α × β)) (k : α) (v : β)
    (h : alookup m k = some v) : aset m k v = m := by
  induction m with
  | nil => exact absurd h (by simp [alookup])
  | cons p rest ih =>
    rw [alookup] at h
    by_cases hk : k = p.1
    · rw [if_pos hk] at h
      cases p
      simp only at h
      injection h with hv
      rw [aset, if_pos hk, hk, ← hv]
    · rw [if_neg hk] at h
      cases p
      rw [aset, if_neg hk, ih h]

/-- Write-back binds the written key to the written value. -/
theorem alookup_aset_self {α β : Type} [DecidableEq α]
    (m : List (α × β)) (k : α) (v : β) : alookup (aset m k v) k = some v := by
  induction m with
  | nil => simp [aset, alookup]
  | cons p rest ih =>
    cases p with
    | mk k0 v0 =>
      by_cases hk : k = k0
      · rw [aset, if_pos hk, alookup, if_pos rfl]
      · rw [aset, if_neg hk, alookup, if_neg hk]
        exact ih

/-- Write-back leaves every other binding unchanged. -/
theorem alookup_aset_other {α β : Type} [DecidableEq α]
    {m : List (α × β)} {k k' : α} (v : β) (h : k' ≠ k) :
    alookup (aset m k v) k' = alookup m k' := by
  induction m with
  | nil => simp [aset, alookup, h]
  | cons p rest ih =>
    cases p with
    | mk k0 v0 =>
      by_cases hk : k = k0
      · subst hk
        rw [aset, if_pos rfl, alookup, if_neg h, alookup, if_neg h]
      · rw [aset, if_neg hk, alookup, alookup]
        by_cases hk' : k' = k0
        · rw [if_pos hk', if_pos hk']
        · rw [if_neg hk', if_neg hk']
          exact ih

/-- Two-level lookup in a nested index map. -/
def alookup2 {α β γ : Type} [DecidableEq α] [DecidableEq β]
    (m : List (α × List (β × γ))) (k : α) (e : β) : Option γ :=
  (alookup m k).bind (fun inner => alookup inner e)

/-- The position list served by an inverse-index access is the stored one,
defaulting to empty. -/
theorem attrIdxAccess_fst (st : KBState) (key eid : String) :
    (attrIdxAccess st key eid).1 =
      (alookup2 st.attribute_inv_index key eid).getD [] := by
  cases ho : alookup st.attribute_inv_index key with
  | some inner =>
    cases hi : alookup inner eid with
    | some l => simp [attrIdxAccess, dgetD, ho, hi, alookup2]
    | none => simp [attrIdxAccess, dgetD, ho, hi, alookup2]
  | none => simp [attrIdxAccess, dgetD, ho, alookup2, alookup]

/-- An inverse-index access touches only the attribute index field. -/
theorem attrIdxAccess_fields (st : KBState) (key eid : String) :
    (attrIdxAccess st key eid).2.entities = st.entities ∧
    (attrIdxAccess st key eid).2.name_to_id = st.name_to_id ∧
    (attrIdxAccess st key eid).2.key_type = st.key_type ∧
    (attrIdxAccess st key eid).2.relation_inv_index = st.relation_inv_index ∧
    (attrIdxAccess st key eid).2.forward_relation_index = st.forward_relation_index ∧
    (attrIdxAccess st key eid).2.concept_to_entity = st.concept_to_entity :=
  ⟨rfl, rfl, rfl, rfl, rfl, rfl⟩

/-- An inverse-index access preserves every stored position list and can
only add an empty one for the probed pair. -/
theorem attrIdxAccess_attr (st : KBState) (key eid : String) (k e : String) :
    alookup2 (attrIdxAccess st key eid).2.attribute_inv_index k e =
      alookup2 st.attribute_inv_index k e ∨
    (alookup2 st.attribute_inv_index k e = none ∧
     alookup2 (attrIdxAccess st key eid).2.attribute_inv_index k e = some []) := by
  by_cases hk : k = key
  · subst hk
    cases ho : alookup st.attribute_inv_index k with
    | some inner =>
      cases hi : alookup inner eid with
      | some l =>
        left
        have hst : (attrIdxAccess st k eid).2.attribute_inv_index =
            st.attribute_inv_index := by
          simp only [attrIdxAccess, dgetD, ho, hi]
          exact aset_of_alookup_eq _ _ _ ho
        rw [hst]
      | none =>
        have hst : (attrIdxAccess st k eid).2.attribute_inv_index =
            aset st.attribute_inv_index k (inner ++ [(eid, [])]) := by
          simp only [attrIdxAccess, dgetD, ho, hi]
        by_cases he : e = eid
        · subst he
          right
          refine ⟨by simp [alookup2, ho, hi], ?_⟩
          rw [hst]
          simp only [alookup2, alookup_aset_self, Option.some_bind]
          rw [alookup_append_of_none _ hi, alookup_singleton_self]
        · left
          rw [hst]
          simp only [alookup2, alookup_aset_self, Option.some_bind, ho]
          cases hie : alookup inner e with
          | some l2 => rw [alookup_append_of_some _ hie]
          | none => rw [alookup_append_of_none _ hie, alookup_singleton_other _ he]
    | none =>
      have hst : (attrIdxAccess st k eid).2.attribute_inv_index =
          aset (st.attribute_inv_index ++ [(k, [])]) k [(eid, [])] := by
        simp only [attrIdxAccess, dgetD, ho, alookup]
        rfl
      by_cases he : e = eid
      · subst he
        right
        refine ⟨by simp [alookup2, ho], ?_⟩
        rw [hst]
        simp only [alookup2, alookup_aset_self, Option.some_bind]
        rw [alookup_singleton_self]
      · left
        rw [hst]
        simp only [alookup2, alookup_aset_self, Option.some_bind, ho]
        rw [alookup_singleton_other _ he]
        rfl
  · left
    have hlk : alookup (attrIdxAccess st key eid).2.attribute_inv_index k =
        alookup st.attribute_inv_index k := by
      cases ho : alookup st.attribute_inv_index key with
      | some inner =>
        cases hi : alookup inner eid with
        | some l =>
          simp only [attrIdxAccess, dgetD, ho, hi]
          rw [aset_of_alookup_eq _ _ _ ho]
        | none =>
          simp only [attrIdxAccess, dgetD, ho, hi]
          rw [alookup_aset_other _ hk]
      | none =>
        simp only [attrIdxAccess, dgetD, ho]
        rw [alookup_aset_other _ hk]
        cases hmk : alookup st.attribute_inv_index k with
        | some v => exact alookup_append_of_some _ hmk
        | none => rw [alookup_append_of_none _ hmk, alookup_singleton_other _ hk]
    simp [alookup2, hlk]

/-- State relation for a primitive that reads the attribute inverse
index: every other field is unchanged, every stored position list is
preserved, and any entry the run adds holds the empty position list. -/
def PreservesAttrIdx (a b : KBState) : Prop :=
  b.entities = a.entities ∧ b.name_to_id = a.name_to_id ∧
  b.key_type = a.key_type ∧ b.relation_inv_index = a.relation_inv_index ∧
  b.forward_relation_index = a.forward_relation_index ∧
  b.concept_to_entity = a.concept_to_entity ∧
  ∀ k e, alookup2 b.attribute_inv_index k e = alookup2 a.attribute_inv_index k e ∨
    (alookup2 a.attribute_inv_index k e = none ∧
     alookup2 b.attribute_inv_index k e = some [])

/-- The preservation relation is reflexive. -/
theorem preservesAttrIdx_refl (a : KBState) : PreservesAttrIdx a a :=
  ⟨rfl, rfl, rfl, rfl, rfl, rfl, fun _ _ => Or.inl rfl⟩

/-- The preservation relation is transitive. -/
theorem preservesAttrIdx_trans {a b c : KBState}
    (h1 : PreservesAttrIdx a b) (h2 : PreservesAttrIdx b c) :
    PreservesAttrIdx a c := by
  obtain ⟨e1, n1, k1, r1, f1, c1, p1⟩ := h1
  obtain ⟨e2, n2, k2, r2, f2, c2, p2⟩ := h2
  refine ⟨e2.trans e1, n2.trans n1, k2.trans k1, r2.trans r1, f2.trans f1,
    c2.trans c1, ?_⟩
  intro k e
  rcases p2 k e with h | ⟨hb, hc⟩
  · rcases p1 k e with h' | ⟨ha, hb'⟩
    · exact Or.inl (h.trans h')
    · exact Or.inr ⟨ha, h.trans hb'⟩
  · rcases p1 k e with h' | ⟨ha, hb'⟩
    · exact Or.inr ⟨h'.symm.trans hb, hc⟩
    · exact absurd (hb'.symm.trans hb) (by simp)

/-- One inverse-index access satisfies the preservation relation. -/
theorem attrIdxAccess_preserves (st : KBState) (key eid : String) :
    PreservesAttrIdx st (attrIdxAccess st key eid).2 := by
  obtain ⟨he, hn, hk, hr, hf, hc⟩ := attrIdxAccess_fields st key eid
  exact ⟨he, hn, hk, hr, hf, hc, fun k e => attrIdxAccess_attr st key eid k e⟩

/-- A successful QueryAttr run satisfies the preservation relation. -/
theorem queryAttrLoop_preserves (key : String) :
    ∀ (ids : List String) (st st' : KBState) (vs : List Value),
      queryAttrLoop key st ids = .ok (vs, st') → PreservesAttrIdx st st' := by
  intro ids
  induction ids with
  | nil =>
    intro st st' vs h
    simp only [queryAttrLoop] at h
    cases h
    exact preservesAttrIdx_refl st
  | cons eid rest ih =>
    intro st st' vs h
    simp only [queryAttrLoop] at h
    cases hga : getAttrsAt (attrIdxAccess st key eid).2 eid (attrIdxAccess st key eid).1 with
    | error e =>
      simp only [hga] at h
      cases h
    | ok attrs =>
      simp only [hga] at h
      cases hrec : queryAttrLoop key (attrIdxAccess st key eid).2 rest with
      | error e =>
        simp only [hrec] at h
        cases h
      | ok p =>
        cases p with
        | mk vs2 st2 =>
          simp only [hrec] at h
          cases h
          exact preservesAttrIdx_trans (attrIdxAccess_preserves st key eid)
            (ih _ _ _ hrec)

/-- When the attribute index holds no position under the key, a QueryAttr
run returns the empty list without error. -/
theorem queryAttrLoop_unseen (key : String) :
    ∀ (ids : List String) (st : KBState),
      (∀ e, alookup2 st.attribute_inv_index key e = none ∨
            alookup2 st.attribute_inv_index key e = some []) →
      ∃ st', queryAttrLoop key st ids = .ok ([], st') := by
  intro ids
  induction ids with
  | nil =>
    intro st _
    exact ⟨st, rfl⟩
  | cons eid rest ih =>
    intro st hinv
    have hfst : (attrIdxAccess st key eid).1 = [] := by
      rw [attrIdxAccess_fst]
      rcases hinv eid with h | h <;> rw [h] <;> rfl
    have hinv' : ∀ e,
        alookup2 (attrIdxAccess st key eid).2.attribute_inv_index key e = none ∨
        alookup2 (attrIdxAccess st key eid).2.attribute_inv_index key e = some [] := by
      intro e
      rcases attrIdxAccess_attr st key eid key e with h | ⟨_, h2⟩
      · rw [h]
        exact hinv e
      · exact Or.inr h2
    obtain ⟨st', hst'⟩ := ih (attrIdxAccess st key eid).2 hinv'
    refine ⟨st', ?_⟩
    simp only [queryAttrLoop, hfst, getAttrsAt, hst', List.map_nil, List.nil_append]

/-- When the attribute index holds no position under the key, a
QueryAttrUnderCondition run returns the empty list without error. -/
theorem qaucLoop_unseen (key qkey : String) (qv : Value) :
    ∀ (ids : List String) (st : KBState),
      (∀ e, alookup2 st.attribute_inv_index key e = none ∨
            alookup2 st.attribute_inv_index key e = some []) →
      ∃ st', qaucLoop key qkey qv st ids = .ok ([], st') := by
  intro ids
  induction ids with
  | nil =>
    intro st _
    exact ⟨st, rfl⟩
  | cons eid rest ih =>
    intro st hinv
    have hfst : (attrIdxAccess st key eid).1 = [] := by
      rw [attrIdxAccess_fst]
      rcases hinv eid with h | h <;> rw [h] <;> rfl
    have hinv' : ∀ e,
        alookup2 (attrIdxAccess st key eid).2.attribute_inv_index key e = none ∨
        alookup2 (attrIdxAccess st key eid).2.attribute_inv_index key e = some [] := by
      intro e
      rcases attrIdxAccess_attr st key eid key e with h | ⟨_, h2⟩
      · rw [h]
        exact hinv e
      · exact Or.inr h2
    obtain ⟨st', hst'⟩ := ih (attrIdxAccess st key eid).2 hinv'
    refine ⟨st', ?_⟩
    simp only [qaucLoop, hfst, qaucAttrs, hst', List.nil_append]

/-- When the attribute index holds no position under the key, a
QueryAttrQualifier run returns the empty list without error. -/
theorem qaqLoop_unseen (key qkey : String) (v : Value) :
    ∀ (ids : List String) (st : KBState),
      (∀ e, alookup2 st.attribute_inv_index key e = none ∨
            alookup2 st.attribute_inv_index key e = some []) →
      ∃ st', qaqLoop key qkey v st ids = .ok ([], st') := by
  intro ids
  induction ids with
  | nil =>
    intro st _
    exact ⟨st, rfl⟩
  | cons eid rest ih =>
    intro st hinv
    have hfst : (attrIdxAccess st key eid).1 = [] := by
      rw [attrIdxAccess_fst]
      rcases hinv eid with h | h <;> rw [h] <;> rfl
    have hinv' : ∀ e,
        alookup2 (attrIdxAccess st key eid).2.attribute_inv_index key e = none ∨
        alookup2 (attrIdxAccess st key eid).2.attribute_inv_index key e = some [] := by
      intro e
      rcases attrIdxAccess_attr st key eid key e with h | ⟨_, h2⟩
      · rw [h]
        exact hinv e
      · exact Or.inr h2
    obtain ⟨st', hst'⟩ := ih (attrIdxAccess st key eid).2 hinv'
    refine ⟨st', ?_⟩
    simp only [qaqLoop, hfst, qaqAttrs, hst', List.nil_append]

/-- A successful Relate run changes only the relation inverse index, and
there only by possibly inserting an empty inner map at the probed pair. -/
theorem Relate_state (st : KBState) (ids : List String) (r d : String)
    (res : List String × List Rel) (st2 : KBState)
    (h : Relate st ids r d = .ok (res, st2)) :
    st2.entities = st.entities ∧ st2.name_to_id = st.name_to_id ∧
    st2.key_type = st.key_type ∧
    st2.attribute_inv_index = st.attribute_inv_index ∧
    st2.forward_relation_index = st.forward_relation_index ∧
    st2.concept_to_entity = st.concept_to_entity ∧
    (∀ p, p ≠ (r, d) →
      alookup st2.relation_inv_index p = alookup st.relation_inv_index p) ∧
    alookup st2.relation_inv_index (r, d) =
      some ((alookup st.relation_inv_index (r, d)).getD []) := by
  simp only [Relate] at h
  cases hrl : relateLoop
      { st with relation_inv_index := (dgetD st.relation_inv_index (r, d) []).2 }
      (dgetD st.relation_inv_index (r, d) []).1
      (ids.dedup.filter
        (fun e => (alookup (dgetD st.relation_inv_index (r, d) []).1 e).isSome)) with
  | error e =>
    simp only [hrl] at h
    cases h
  | ok facts =>
    simp only [hrl] at h
    cases h
    refine ⟨rfl, rfl, rfl, rfl, rfl, rfl, ?_, ?_⟩
    · intro p hp
      exact alookup_dgetD_other _ hp
    · exact alookup_dgetD_self _ _ _

/-- C3 counterexample: on a knowledge base with an empty key_type map,
QueryAttrUnderCondition with an absent qualifier key raises KeyError
instead of returning the empty list. -/
theorem c3_unknown_qualifier_key_counterexample :
    QueryAttrUnderCondition ⟨[], [], [], [], [], [], []⟩ [] "k" "q" "v" =
      .error .keyError :=
  rfl

/-- C3 amended: unknown names, concepts, attribute keys and relations make
the primitives return empty results without error, and literal parsing is
one permitted failure; but QueryAttrUnderCondition and QueryAttrQualifier
additionally raise KeyError when the qualifier key, respectively the
attribute key, is absent from key_type, because their type lookup precedes
the scan. -/
theorem c3_unknown_arguments_amended (st : KBState) (ids : List String)
    (name concept key relation direction qkey qvalue avalue ukey uval uq : String)
    (qv av : Value)
    (hname : alookup st.name_to_id name = none)
    (hconcept : alookup st.name_to_id concept = none)
    (hkey : alookup st.attribute_inv_index key = none)
    (hrel : alookup st.relation_inv_index (relation, direction) = none)
    (hqt : parse_key_value st.key_type (some qkey) qvalue none = .ok qv)
    (hat : parse_key_value st.key_type (some key) avalue none = .ok av)
    (huk : alookup st.key_type ukey = none) :
    (Find st name).1.1 = [] ∧
    (FilterConcept st ids concept).1.1 = [] ∧
    (∃ st', QueryAttr st ids key = .ok ([], st')) ∧
    (∃ st', Relate st ids relation direction = .ok (([], []), st')) ∧
    (∃ st', QueryAttrUnderCondition st ids key qkey qvalue = .ok ([], st')) ∧
    (∃ st', QueryAttrQualifier st ids key avalue qkey = .ok ([], st')) ∧
    QueryAttrUnderCondition st ids key ukey uval = .error .keyError ∧
    QueryAttrQualifier st ids ukey uval uq = .error .keyError := by
  have hinv : ∀ e, alookup2 st.attribute_inv_index key e = none ∨
      alookup2 st.attribute_inv_index key e = some [] := by
    intro e
    left
    rw [alookup2, hkey]
    rfl
  refine ⟨?_, ?_, ?_, ?_, ?_, ?_, ?_, ?_⟩
  · show (dgetD st.name_to_id name []).1 = []
    rw [dgetD_fst, hname]
    rfl
  · show ((dgetD st.name_to_id concept []).1.foldl
        (fun acc i => acc ++ (alookup st.concept_to_entity i).getD []) []
        |> fun l => ids.dedup.filter (fun e => decide (e ∈ l))) = []
    rw [dgetD_fst, hconcept]
    simp
  · exact queryAttrLoop_unseen key ids st hinv
  · refine ⟨{ st with relation_inv_index :=
      (dgetD st.relation_inv_index (relation, direction) []).2 }, ?_⟩
    simp only [Relate, dgetD, hrel, alookup, Option.isSome_none, List.filter_false,
      relateLoop, List.map_nil]
  · rw [QueryAttrUnderCondition, hqt]
    exact qaucLoop_unseen key qkey qv ids st hinv
  · rw [QueryAttrQualifier, hat]
    exact qaqLoop_unseen key qkey av ids st hinv
  · rw [QueryAttrUnderCondition, parse_key_value, huk]
  · rw [QueryAttrQualifier, parse_key_value, huk]

/-- C3 witness: on a small knowledge base whose key_type knows keys q and
k but whose indices are empty, QueryAttrUnderCondition with the unknown
attribute key k returns the empty list. -/
theorem c3_unknown_arguments_amended_witness :
    ∃ st', QueryAttrUnderCondition
      ⟨[], [], [("q", VType.string), ("k", VType.string)], [], [], [], []⟩
      [] "k" "q" "v" = .ok ([], st') :=
  (c3_unknown_arguments_amended
    ⟨[], [], [("q", VType.string), ("k", VType.string)], [], [], [], []⟩
    [] "alice" "person" "k" "spouse" "forward" "q" "v" "w" "u" "z" "y"
    (Value.str "v") (Value.str "w")
    rfl rfl rfl rfl rfl rfl rfl).2.2.2.2.1

/-- C5 counterexample: Find with a name unseen in the name index inserts
an empty binding for that name, so the resulting state differs from the
input state. -/
theorem c5_find_mutates_counterexample :
    (Find ⟨[], [], [], [], [], [], []⟩ "alice").2.name_to_id = [("alice", [])] ∧
    (⟨[], [], [], [], [], [], []⟩ : KBState).name_to_id = [] :=
  ⟨rfl, rfl⟩

/-- C5 amended: primitive evaluation never changes the entity store nor
any stored index entry, but defaultdict reads insert empty defaults: Find
binds an unseen name to the empty id list, a successful QueryAttr adds at
most empty position lists under the probed attribute key, and a successful
Relate adds at most an empty inner map under the probed relation pair. -/
theorem c5_frame_amended (st : KBState) (name key relation direction : String)
    (ids : List String) (vs : List Value) (st1 : KBState)
    (res : List String × List Rel) (st2 : KBState)
    (hq : QueryAttr st ids key = .ok (vs, st1))
    (hr : Relate st ids relation direction = .ok (res, st2)) :
    ((Find st name).2.entities = st.entities ∧
     (Find st name).2.key_type = st.key_type ∧
     (Find st name).2.attribute_inv_index = st.attribute_inv_index ∧
     (Find st name).2.relation_inv_index = st.relation_inv_index ∧
     (Find st name).2.forward_relation_index = st.forward_relation_index ∧
     (Find st name).2.concept_to_entity = st.concept_to_entity ∧
     (∀ k, k ≠ name →
       alookup (Find st name).2.name_to_id k = alookup st.name_to_id k) ∧
     alookup (Find st name).2.name_to_id name =
       some ((alookup st.name_to_id name).getD [])) ∧
    PreservesAttrIdx st st1 ∧
    (st2.entities = st.entities ∧ st2.name_to_id = st.name_to_id ∧
     st2.key_type = st.key_type ∧
     st2.attribute_inv_index = st.attribute_inv_index ∧
     st2.forward_relation_index = st.forward_relation_index ∧
     st2.concept_to_entity = st.concept_to_entity ∧
     (∀ p, p ≠ (relation, direction) →
       alookup st2.relation_inv_index p = alookup st.relation_inv_index p) ∧
     alookup st2.relation_inv_index (relation, direction) =
       some ((alookup st.relation_inv_index (relation, direction)).getD [])) := by
  refine ⟨⟨rfl, rfl, rfl, rfl, rfl, rfl, ?_, ?_⟩, ?_, ?_⟩
  · intro k hk
    exact alookup_dgetD_other _ hk
  · exact alookup_dgetD_self _ _ _
  · exact queryAttrLoop_preserves key ids st st1 vs hq
  · exact Relate_state st ids relation direction res st2 hr

/-- C5 witness: the amended frame property instantiated on the empty
knowledge base with an empty id list. -/
theorem c5_frame_amended_witness :
    PreservesAttrIdx ⟨[], [], [], [], [], [], []⟩ ⟨[], [], [], [], [], [], []⟩ :=
  (c5_frame_amended ⟨[], [], [], [], [], [], []⟩ "alice" "k" "r" "forward"
    [] [] ⟨[], [], [], [], [], [], []⟩ ([], [])
    ⟨[], [], [], [], [(("r", "forward"), [])], [], []⟩ rfl rfl).2.1

/-- Raw attribute record as scanned during construction: the value is
represented by its type tag, and qualifier values by their type tags. -/
structure RawAttr where
  key : String
  vty : VType
  qualifiers : List (String × List VType)
deriving DecidableEq

/-- Raw relation record as scanned during construction. -/
structure RawRel where
  relation : String
  direction : String
  object : String
  qualifiers : List (String × List VType)
deriving DecidableEq

/-- Raw entity record of the merged store fed to the construction scans. -/
structure RawEntity where
  name : String
  isA : List String
  attributes : List RawAttr
  relations : List RawRel
deriving DecidableEq

/-- The key_type writes an attribute record produces, in execution order:
the attribute key with the value tag, then one write per qualifier value. -/
def attrEvents (a : RawAttr) : List (String × VType) :=
  (a.key, a.vty) :: a.qualifiers.flatMap (fun q => q.2.map (fun t => (q.1, t)))

/-- The key_type writes a relation record produces: one per qualifier
value. -/
def relEvents (r : RawRel) : List (String × VType) :=
  r.qualifiers.flatMap (fun q => q.2.map (fun t => (q.1, t)))

/-- The key_type writes of one entity: all attribute writes, then all
relation-qualifier writes. -/
def entityEvents (e : RawEntity) : List (String × VType) :=
  e.attributes.flatMap attrEvents ++ e.relations.flatMap relEvents

/-- All key_type writes of the construction scan over the entity store. -/
def scanEvents (ents : List (String × RawEntity)) : List (String × VType) :=
  ents.flatMap (fun p => entityEvents p.2)

/-- The key_type dict after the scan: last writer wins per key. -/
def keyTypeRaw (ents : List (String × RawEntity)) : List (String × VType) :=
  (scanEvents ents).foldl (fun m ev => aset m ev.1 ev.2) []

/-- Year-to-date normalisation applied to each key_type entry at the end
of construction. -/
def normType (t : VType) : VType :=
  if t = VType.year then VType.date else t

/-- The final key_type after the year-to-date normalisation of
KB.init. -/
def key_typeF (ents : List (String × RawEntity)) : List (String × VType) :=
  (keyTypeRaw ents).map (fun p => (p.1, normType p.2))

/-- All value types observed for a key during the scan, in order. -/
def observedTypes (ents : List (String × RawEntity)) (k : String) : List VType :=
  (scanEvents ents).filterMap (fun ev => if ev.1 = k then some ev.2 else none)

/-- Lookup in an association list is the head of the matching values. -/
theorem alookup_eq_filterMap_head {α β : Type} [DecidableEq α]
    (m : List (α × β)) (k : α) :
    alookup m k = (m.filterMap (fun ev => if ev.1 = k then some ev.2 else none)).head? := by
  induction m with
  | nil => rfl
  | cons ev rest ih =>
    cases ev with
    | mk k0 v0 =>
      by_cases hk : k = k0
      · subst hk
        simp [alookup, List.filterMap_cons]
      · rw [alookup, if_neg hk, List.filterMap_cons]
        simp only
        rw [if_neg (fun h => hk h.symm)]
        exact ih

/-- Folding assignments over events looks up as the last write, falling
back to the initial map. -/
theorem alookup_foldl_aset {α : Type} [DecidableEq α]
    (evs : List (α × VType)) (m : List (α × VType)) (k : α) :
    alookup (evs.foldl (fun acc ev => aset acc ev.1 ev.2) m) k =
      match alookup evs.reverse k with
      | some t => some t
      | none => alookup m k := by
  induction evs generalizing m with
  | nil => rfl
  | cons ev rest ih =>
    rw [List.foldl_cons, ih, List.reverse_cons]
    cases hr : alookup rest.reverse k with
    | some t => rw [alookup_append_of_some _ hr]
    | none =>
      rw [alookup_append_of_none _ hr]
      cases ev with
      | mk k0 v0 =>
        by_cases hk : k = k0
        · subst hk
          rw [alookup_singleton_self, alookup_aset_self]
        · rw [alookup_singleton_other _ hk, alookup_aset_other _ hk]

/-- Lookup under a value-mapping of an association list. -/
theorem alookup_map_value {α β γ : Type} [DecidableEq α] (f : β → γ)
    (m : List (α × β)) (k : α) :
    alookup (m.map (fun p => (p.1, f p.2))) k = (alookup m k).map f := by
  induction m with
  | nil => rfl
  | cons p rest ih =>
    cases p with
    | mk k0 v0 =>
      by_cases hk : k = k0
      · subst hk
        simp [alookup]
      · simp only [List.map_cons, alookup, if_neg hk]
        exact ih

/-- The raw key_type binds a key to the last type written for it. -/
theorem keyTypeRaw_lookup (ents : List (String × RawEntity)) (k : String) :
    alookup (keyTypeRaw ents) k = (observedTypes ents k).getLast? := by
  rw [keyTypeRaw, alookup_foldl_aset]
  have h1 : alookup (scanEvents ents).reverse k =
      ((scanEvents ents).filterMap
        (fun ev => if ev.1 = k then some ev.2 else none)).getLast? := by
    rw [alookup_eq_filterMap_head, List.filterMap_reverse, List.head?_reverse]
  cases hr : alookup (scanEvents ents).reverse k with
  | some t =>
    rw [hr] at h1
    rw [observedTypes, ← h1]
  | none =>
    rw [hr] at h1
    rw [observedTypes, ← h1]
    rfl

/-- C4 counterexample: a key observed with a year value and then a string
value ends with key_type string, not date as the claim requires. -/
theorem c4_key_type_counterexample :
    alookup (key_typeF
      [("e", ⟨"E", [], [⟨"k", VType.year, []⟩, ⟨"k", VType.string, []⟩], []⟩)]) "k" =
      some VType.string ∧
    VType.year ∈ observedTypes
      [("e", ⟨"E", [], [⟨"k", VType.year, []⟩, ⟨"k", VType.string, []⟩], []⟩)] "k" ∧
    some VType.string ≠ some VType.date := by
  refine ⟨rfl, ?_, by decide⟩
  decide

/-- C4 amended: every final key_type value avoids the year tag, and a key
maps to date exactly when the last value observed for it during the scan
(not merely some value) was a date or a year. -/
theorem c4_key_type_amended (ents : List (String × RawEntity)) (k : String)
    (t : VType) (hobs : (observedTypes ents k).getLast? = some t) :
    (∀ k' t', alookup (key_typeF ents) k' = some t' → t' ≠ VType.year) ∧
    (∃ t', alookup (key_typeF ents) k = some t' ∧
      (t' = VType.date ↔ (t = VType.date ∨ t = VType.year))) := by
  constructor
  · intro k' t' h
    rw [key_typeF, alookup_map_value normType] at h
    cases hraw : alookup (keyTypeRaw ents) k' with
    | none => rw [hraw] at h; cases h
    | some t0 =>
      rw [hraw] at h
      cases t0 <;> simp_all [normType] <;> (subst h; decide)
  · refine ⟨normType t, ?_, ?_⟩
    · rw [key_typeF, alookup_map_value normType, keyTypeRaw_lookup, hobs]
      rfl
    · cases t <;> decide

/-- C4 witness: a key whose last observed value is a year gets key_type
date. -/
theorem c4_key_type_amended_witness :
    ∃ t', alookup (key_typeF [("e", ⟨"E", [], [⟨"k", VType.year, []⟩], []⟩)]) "k" =
        some t' ∧
      (t' = VType.date ↔ (VType.year = VType.date ∨ VType.year = VType.year)) :=
  (c4_key_type_amended [("e", ⟨"E", [], [⟨"k", VType.year, []⟩], []⟩)] "k"
    VType.year (by decide)).2

/-- Sentinel tokens of the interpreter. -/
def sentinelTok (p : String) : Bool :=
  p == "<START>" || p == "<END>" || p == "<PAD>"

/-- Leaf tokens: the two retrieval primitives that open a branch. -/
def leafTok (p : String) : Bool :=
  p == "FindAll" || p == "Find"

/-- The five binary combinators that close a branch. -/
def binaryTok (p : String) : Bool :=
  p == "And" || p == "Or" || p == "SelectBetween" || p == "QueryRelation" ||
    p == "QueryRelationQualifier"

/-- One step of the dependency-inference loop of KoPLEngine.forward: the
produced dependency list and the updated branch stack; popping an empty
stack raises IndexError as Python list indexing does. -/
def depStep (stack : List Int) (i : Int) (p : String) :
    Except PyErr (List Int × List Int) :=
  if sentinelTok p then .ok ([], stack)
  else if leafTok p then .ok ([], (i - 1) :: stack)
  else if binaryTok p then
    match stack with
    | [] => .error .indexError
    | top :: rest => .ok ([top, i - 1], rest)
  else .ok ([i - 1], stack)

/-- The dependency-inference loop from a given position and stack. -/
def inferDepsAux : List String → Int → List Int → Except PyErr (List (List Int))
  | [], _, _ => .ok []
  | p :: rest, i, stack =>
    match depStep stack i p with
    | .error e => .error e
    | .ok (dep, stack') =>
      match inferDepsAux rest (i + 1) stack' with
      | .error e => .error e
      | .ok deps => .ok (dep :: deps)

/-- Dependency inference over the bracketed program. -/
def inferDeps (prog : List String) : Except PyErr (List (List Int)) :=
  inferDepsAux prog 0 []

/-- The branch stack left after consuming a token prefix. -/
def stackAfterAux : List String → Int → List Int → Except PyErr (List Int)
  | [], _, stack => .ok stack
  | p :: rest, i, stack =>
    match depStep stack i p with
    | .error e => .error e
    | .ok p' => stackAfterAux rest (i + 1) p'.2

/-- The per-position dependency assignment the claim states: sentinels and
leaves get no dependencies, binary combinators get the stack top and the
preceding position, everything else the preceding position. -/
def depSpec (p : String) (i : Int) (stack dep : List Int) : Prop :=
  if sentinelTok p then dep = []
  else if leafTok p then dep = []
  else if binaryTok p then ∃ top rest, stack = top :: rest ∧ dep = [top, i - 1]
  else dep = [i - 1]

/-- The per-position stack evolution the claim states: leaves push the
preceding position, binary combinators pop, everything else leaves the
stack unchanged. -/
def stackSpec (p : String) (i : Int) (stack stack' : List Int) : Prop :=
  if sentinelTok p then stack' = stack
  else if leafTok p then stack' = (i - 1) :: stack
  else if binaryTok p then ∃ top rest, stack = top :: rest ∧ stack' = rest
  else stack' = stack

/-- A successful inference step satisfies the claimed dependency and stack
behaviour. -/
theorem depStep_spec (stack : List Int) (i : Int) (p : String)
    (dep stack' : List Int) (h : depStep stack i p = .ok (dep, stack')) :
    depSpec p i stack dep ∧ stackSpec p i stack stack' := by
  rw [depStep.eq_def] at h
  rw [depSpec, stackSpec]
  by_cases hs : sentinelTok p
  · rw [if_pos hs] at h ⊢
    rw [if_pos hs]
    cases h
    exact ⟨rfl, rfl⟩
  · rw [if_neg hs] at h ⊢
    rw [if_neg hs]
    by_cases hl : leafTok p
    · rw [if_pos hl] at h ⊢
      rw [if_pos hl]
      cases h
      exact ⟨rfl, rfl⟩
    · rw [if_neg hl] at h ⊢
      rw [if_neg hl]
      by_cases hb : binaryTok p
      · rw [if_pos hb] at h ⊢
        rw [if_pos hb]
        cases stack with
        | nil => cases h
        | cons top rest =>
          cases h
          exact ⟨⟨top, _, rfl, rfl⟩, ⟨top, _, rfl, rfl⟩⟩
      · rw [if_neg hb] at h ⊢
        rw [if_neg hb]
        cases h
        exact ⟨rfl, rfl⟩

/-- Successful dependency inference from any starting position and stack
assigns every position the claimed dependencies, with the branch stack
evolving by the claimed pushes and pops. -/
theorem inferDepsAux_spec :
    ∀ (prog : List String) (i0 : Int) (st0 : List Int) (deps : List (List Int)),
      inferDepsAux prog i0 st0 = .ok deps →
      deps.length = prog.length ∧
      ∀ j (hj : j < prog.length) (hj' : j < deps.length),
        ∃ st st', stackAfterAux (prog.take j) i0 st0 = .ok st ∧
          stackAfterAux (prog.take (j + 1)) i0 st0 = .ok st' ∧
          depSpec (prog.get ⟨j, hj⟩) (i0 + j) st (deps.get ⟨j, hj'⟩) ∧
          stackSpec (prog.get ⟨j, hj⟩) (i0 + j) st st' := by
  intro prog
  induction prog with
  | nil =>
    intro i0 st0 deps h
    simp only [inferDepsAux] at h
    cases h
    exact ⟨rfl, fun j hj => absurd hj (by simp)⟩
  | cons p rest ih =>
    intro i0 st0 deps h
    simp only [inferDepsAux] at h
    cases hd : depStep st0 i0 p with
    | error e =>
      simp only [hd] at h
      cases h
    | ok pr =>
      cases pr with
      | mk dep stack' =>
        simp only [hd] at h
        cases hrec : inferDepsAux rest (i0 + 1) stack' with
        | error e =>
          simp only [hrec] at h
          cases h
        | ok deps' =>
          simp only [hrec] at h
          cases h
          obtain ⟨hlen, hspec⟩ := ih (i0 + 1) stack' deps' hrec
          refine ⟨by simp [hlen], ?_⟩
          intro j hj hj'
          cases j with
          | zero =>
            refine ⟨st0, stack', rfl, ?_, ?_, ?_⟩
            · simp only [List.take_succ_cons, List.take_zero, stackAfterAux, hd]
            · have := (depStep_spec st0 i0 p dep stack' hd).1
              simpa using this
            · have := (depStep_spec st0 i0 p dep stack' hd).2
              simpa using this
          | succ j' =>
            have hj2 : j' < rest.length := by
              simpa using hj
            have hj2' : j' < deps'.length := by
              simpa using hj'
            obtain ⟨st, st', h1, h2, h3, h4⟩ := hspec j' hj2 hj2'
            refine ⟨st, st', ?_, ?_, ?_, ?_⟩
            · simp only [List.take_succ_cons, stackAfterAux, hd]
              exact h1
            · simp only [List.take_succ_cons, stackAfterAux, hd]
              exact h2
            · have harith : i0 + (↑(j' + 1) : Int) = (i0 + 1) + ↑j' := by
                push_cast
                ring
              simp only [List.get, harith]
              exact h3
            · have harith : i0 + (↑(j' + 1) : Int) = (i0 + 1) + ↑j' := by
                push_cast
                ring
              simp only [List.get, harith]
              exact h4

/-- C6: successful dependency inference over the bracketed program gives
every position exactly the claimed dependencies: none for sentinels, none
for the branch-opening leaves, the stack top paired with the preceding
position for the five binary combinators, and the preceding position for
every other primitive, with the claimed stack pushes and pops. -/
theorem c6_dependency_inference (prog : List String) (deps : List (List Int))
    (h : inferDeps prog = .ok deps) :
    deps.length = prog.length ∧
    ∀ j (hj : j < prog.length) (hj' : j < deps.length),
      ∃ st st', stackAfterAux (prog.take j) 0 [] = .ok st ∧
        stackAfterAux (prog.take (j + 1)) 0 [] = .ok st' ∧
        depSpec (prog.get ⟨j, hj⟩) j st (deps.get ⟨j, hj'⟩) ∧
        stackSpec (prog.get ⟨j, hj⟩) j st st' := by
  obtain ⟨hlen, hspec⟩ := inferDepsAux_spec prog 0 [] deps h
  refine ⟨hlen, ?_⟩
  intro j hj hj'
  obtain ⟨st, st', h1, h2, h3, h4⟩ := hspec j hj hj'
  rw [zero_add] at h3 h4
  exact ⟨st, st', h1, h2, h3, h4⟩

/-- C6 witness: the program Find FindAll And bracketed by sentinels; at
the binary combinator the dependencies are the stack top and the
preceding position. -/
theorem c6_dependency_inference_witness :
    ([[], [], [], [1, 2], []] : List (List Int)).length =
      (["<START>", "Find", "FindAll", "And", "<END>"] : List String).length ∧
    ∃ st st',
      stackAfterAux (["<START>", "Find", "FindAll", "And", "<END>"].take 3) 0 [] =
        .ok st ∧
      stackAfterAux (["<START>", "Find", "FindAll", "And", "<END>"].take 4) 0 [] =
        .ok st' ∧
      depSpec "And" 3 st [1, 2] ∧ stackSpec "And" 3 st st' := by
  have h := c6_dependency_inference ["<START>", "Find", "FindAll", "And", "<END>"]
    [[], [], [], [1, 2], []] rfl
  exact ⟨h.1, h.2 3 (by decide) (by decide)⟩

/-- The ids of the merged entity store, in insertion order. -/
def entIds (ents : List (String × RawEntity)) : List String :=
  ents.map Prod.fst

/-- Plain lookup of an entity record by id. -/
def lookupEnt (ents : List (String × RawEntity)) (i : String) : Option RawEntity :=
  alookup ents i

/-- KB.get_direct_concepts: the isA targets present in the store, with the
direct self-loop removed; an absent entity has no direct concepts. -/
def get_direct_concepts (ents : List (String × RawEntity)) (eid : String) :
    List String :=
  match lookupEnt ents eid with
  | some e => e.isA.filter (fun i => (lookupEnt ents i).isSome && i != eid)
  | none => []

/-- The raw isA list of a stored entity, empty when absent. -/
def getIsA (ents : List (String × RawEntity)) (cid : String) : List String :=
  match lookupEnt ents cid with
  | some e => e.isA
  | none => []

/-- A successful lookup puts the id among the store ids. -/
theorem mem_entIds_of_lookup {ents : List (String × RawEntity)} {c : String}
    (h : (lookupEnt ents c).isSome = true) : c ∈ entIds ents := by
  rw [lookupEnt] at h
  induction ents with
  | nil => simp [alookup] at h
  | cons p rest ih =>
    rw [alookup] at h
    by_cases hk : c = p.1
    · rw [entIds, List.map_cons]
      exact hk ▸ List.mem_cons_self _ _
    · rw [if_neg hk] at h
      rw [entIds, List.map_cons]
      exact List.mem_cons_of_mem _ (ih h)

/-- The breadth-first ancestry loop of KB.get_all_concepts: pop the front
of the queue; a stored, unvisited id is recorded and its isA targets are
enqueued; anything else is skipped.  The visited set makes the loop
terminate on every input, cycles and self-loops included: each step either
shrinks the set of store ids not yet visited or shortens the queue. -/
def bfsAux (ents : List (String × RawEntity)) :
    List String → List String → List String
  | [], anc => anc
  | c :: rest, anc =>
    if h : (lookupEnt ents c).isSome = true ∧ c ∉ anc then
      bfsAux ents (rest ++ getIsA ents c) (c :: anc)
    else
      bfsAux ents rest anc
termination_by q anc => (((entIds ents).toFinset \ anc.toFinset).card, q.length)
decreasing_by
  · apply Prod.Lex.left
    have hc : c ∈ (entIds ents).toFinset \ anc.toFinset := by
      rw [Finset.mem_sdiff, List.mem_toFinset, List.mem_toFinset]
      exact ⟨mem_entIds_of_lookup h.1, h.2⟩
    apply Finset.card_lt_card
    rw [Finset.ssubset_iff_of_subset]
    · exact ⟨c, hc, by simp [List.toFinset_cons]⟩
    · apply Finset.sdiff_subset_sdiff (le_refl _)
      rw [List.toFinset_cons]
      exact Finset.subset_insert _ _
  · apply Prod.Lex.right
    simp

/-- KB.get_all_concepts: breadth-first ancestry from the direct concepts. -/
def getAllConcepts (ents : List (String × RawEntity)) (eid : String) :
    List String :=
  bfsAux ents (get_direct_concepts ents eid) []

/-- The transitive isA closure the claim speaks about: a direct concept of
the entity, or a stored isA target of an element of the closure. -/
inductive IsAncestor (ents : List (String × RawEntity)) (e : String) : String → Prop
  | base (c : String) : c ∈ get_direct_concepts ents e → IsAncestor ents e c
  | step (d c : String) : IsAncestor ents e d → c ∈ getIsA ents d →
      (lookupEnt ents c).isSome = true → IsAncestor ents e c

/-- Soundness invariant of the ancestry loop: when every stored id in the
queue and every recorded id satisfies a property closed under stored isA
steps, every id in the result satisfies it. -/
theorem bfsAux_sound (ents : List (String × RawEntity)) (P : String → Prop)
    (hstep : ∀ d c, P d → c ∈ getIsA ents d →
      (lookupEnt ents c).isSome = true → P c) :
    ∀ q anc, (∀ c ∈ q, (lookupEnt ents c).isSome = true → P c) →
      (∀ c ∈ anc, P c) → ∀ x ∈ bfsAux ents q anc, P x := by
  intro q anc
  induction q, anc using bfsAux.induct ents with
  | case1 anc =>
    intro _ hanc x hx
    simp only [bfsAux] at hx
    exact hanc x hx
  | case2 c rest anc h ih =>
    intro hq hanc x hx
    rw [bfsAux, dif_pos h] at hx
    refine ih ?_ ?_ x hx
    · intro d hd hds
      rcases List.mem_append.mp hd with hd | hd
      · exact hq d (List.mem_cons_of_mem _ hd) hds
      · exact hstep c d (hq c (List.mem_cons_self _ _) h.1) hd hds
    · intro d hd
      rcases List.mem_cons.mp hd with rfl | hd
      · exact hq d (List.mem_cons_self _ _) h.1
      · exact hanc d hd
  | case3 c rest anc h ih =>
    intro hq hanc x hx
    rw [bfsAux, dif_neg h] at hx
    exact ih (fun d hd => hq d (List.mem_cons_of_mem _ hd)) hanc x hx

/-- Monotonicity of the ancestry loop: recorded ids stay in the result and
every stored id in the queue reaches the result. -/
theorem bfsAux_mono (ents : List (String × RawEntity)) :
    ∀ q anc, (∀ c ∈ anc, c ∈ bfsAux ents q anc) ∧
      (∀ c ∈ q, (lookupEnt ents c).isSome = true → c ∈ bfsAux ents q anc) := by
  intro q anc
  induction q, anc using bfsAux.induct ents with
  | case1 anc =>
    constructor
    · intro c hc
      simpa only [bfsAux] using hc
    · intro c hc
      exact absurd hc (List.not_mem_nil c)
  | case2 c rest anc h ih =>
    have heq : bfsAux ents (c :: rest) anc =
        bfsAux ents (rest ++ getIsA ents c) (c :: anc) := by
      rw [bfsAux, dif_pos h]
    constructor
    · intro d hd
      rw [heq]
      exact ih.1 d (List.mem_cons_of_mem _ hd)
    · intro d hd hds
      rw [heq]
      rcases List.mem_cons.mp hd with rfl | hd
      · exact ih.1 d (List.mem_cons_self _ _)
      · exact ih.2 d (List.mem_append_left _ hd) hds
  | case3 c rest anc h ih =>
    have heq : bfsAux ents (c :: rest) anc = bfsAux ents rest anc := by
      rw [bfsAux, dif_neg h]
    constructor
    · intro d hd
      rw [heq]
      exact ih.1 d hd
    · intro d hd hds
      rw [heq]
      rcases List.mem_cons.mp hd with rfl | hd
      · have hcanc : d ∈ anc := by
          by_contra hna
          exact h ⟨hds, hna⟩
        exact ih.1 d hcanc
      · exact ih.2 d hd hds

/-- Closure of the ancestry loop: a result id that was not initially
recorded has all its stored isA targets in the result. -/
theorem bfsAux_closed (ents : List (String × RawEntity)) :
    ∀ q anc, ∀ x, x ∈ bfsAux ents q anc → x ∉ anc →
      ∀ d, d ∈ getIsA ents x → (lookupEnt ents d).isSome = true →
        d ∈ bfsAux ents q anc := by
  intro q anc
  induction q, anc using bfsAux.induct ents with
  | case1 anc =>
    intro x hx hxanc d _ _
    simp only [bfsAux] at hx
    exact absurd hx hxanc
  | case2 c rest anc h ih =>
    intro x hx hxanc d hd hds
    have heq : bfsAux ents (c :: rest) anc =
        bfsAux ents (rest ++ getIsA ents c) (c :: anc) := by
      rw [bfsAux, dif_pos h]
    rw [heq] at hx ⊢
    by_cases hxc : x = c
    · subst hxc
      exact (bfsAux_mono ents _ _).2 d (List.mem_append_right _ hd) hds
    · refine ih x hx ?_ d hd hds
      intro hmem
      rcases List.mem_cons.mp hmem with hmem | hmem
      · exact hxc hmem
      · exact hxanc hmem
  | case3 c rest anc h ih =>
    intro x hx hxanc d hd hds
    have heq : bfsAux ents (c :: rest) anc = bfsAux ents rest anc := by
      rw [bfsAux, dif_neg h]
    rw [heq] at hx ⊢
    exact ih x hx hxanc d hd hds

/-- Everything the ancestry computation returns is an ancestor. -/
theorem getAllConcepts_sound (ents : List (String × RawEntity)) (e x : String)
    (hx : x ∈ getAllConcepts ents e) : IsAncestor ents e x :=
  bfsAux_sound ents (IsAncestor ents e)
    (fun d c hd hc hcs => IsAncestor.step d c hd hc hcs)
    (get_direct_concepts ents e) []
    (fun c hc _ => IsAncestor.base c hc)
    (fun c hc => absurd hc (List.not_mem_nil c)) x hx

/-- Every ancestor appears in the ancestry computation result. -/
theorem getAllConcepts_complete (ents : List (String × RawEntity)) (e x : String)
    (hx : IsAncestor ents e x) : x ∈ getAllConcepts ents e := by
  induction hx with
  | base c hc =>
    have hcs : (lookupEnt ents c).isSome = true := by
      rw [get_direct_concepts] at hc
      cases hle : lookupEnt ents e with
      | none =>
        rw [hle] at hc
        exact absurd hc (List.not_mem_nil c)
      | some ent =>
        rw [hle] at hc
        have hb := (List.mem_filter.mp hc).2
        exact (Bool.and_eq_true _ _).mp hb |>.1
    exact (bfsAux_mono ents _ _).2 c hc hcs
  | step d c hd hc hcs ih =>
    exact bfsAux_closed ents _ _ d ih (List.not_mem_nil d) c hc hcs

/-- The concept index built during construction: an entity is filed under
every concept its ancestry computation returns. -/
def concept_to_entityF (ents : List (String × RawEntity)) (c : String) :
    List String :=
  (entIds ents).filter (fun e => decide (c ∈ getAllConcepts ents e))

/-- C7: an entity of the store belongs to the concept index entry of a
concept exactly when that concept lies in its transitive isA closure; the
ancestry traversal itself is a total function (defined by well-founded
recursion on the unvisited ids and the queue), so it terminates on every
input, including isA graphs with cycles and self-loops. -/
theorem c7_concept_closure (ents : List (String × RawEntity)) (e c : String)
    (he : e ∈ entIds ents) :
    e ∈ concept_to_entityF ents c ↔ IsAncestor ents e c := by
  rw [concept_to_entityF, List.mem_filter]
  constructor
  · intro h
    exact getAllConcepts_sound ents e c (of_decide_eq_true h.2)
  · intro h
    exact ⟨he, decide_eq_true (getAllConcepts_complete ents e c h)⟩

/-- C7 witness: in a store where entity a is an instance of concept p and
p carries an isA self-loop, a is filed under p. -/
theorem c7_concept_closure_witness :
    "a" ∈ concept_to_entityF
      [("a", ⟨"A", ["p"], [], []⟩), ("p", ⟨"P", ["p"], [], []⟩)] "p" :=
  (c7_concept_closure [("a", ⟨"A", ["p"], [], []⟩), ("p", ⟨"P", ["p"], [], []⟩)]
    "a" "p" (by decide)).mpr
    (IsAncestor.base "p" (by decide))

end KoPL
